import Mathlib

set_option maxHeartbeats 2000000
set_option maxRecDepth 100000

/-!
Shallow embedding of the rm_vision transmission codec and frame queue.

Byte sequences are modelled as `List Nat` (each entry a byte value 0-255),
output buffers written through raw pointers as functions `Nat → Nat`, and
fallible reads (`vector::operator[]` past the end, dereferencing a null
`HuffmanNode` pointer, `priority_queue::top()` on an empty queue) as `Option`,
where `none` marks the out-of-bounds access / undefined behaviour.
-/

/-- Pixel classification of the byte-pair run-length encoder
(`HeroCamCompressor::compressRLE`, search.cpp line 128): a pixel strictly
brighter than 128 is level 1, otherwise level 0. -/
def bpVal (p : Nat) : Nat := if 128 < p then 1 else 0

/-- Inner run-counting loop of the byte-pair `compressRLE` (search.cpp lines
130-134): starting from `count`, keep absorbing further pixels of the same
level while pixels remain, the level matches, `count < 255`, and
`idx + 1 < maxl` (the last conjunct never changes inside the loop because
`buf_idx` is not modified there). -/
def bpRun (v idx maxl : Nat) : List Nat → Nat → Nat
  | [], count => count
  | p :: rest, count =>
    if bpVal p = v ∧ count < 255 ∧ idx + 1 < maxl then bpRun v idx maxl rest (count + 1)
    else count

/-- Outer loop of the byte-pair `compressRLE` (search.cpp lines 127-138).
Each iteration consumes one run: it writes the run length at `idx` and the
level at `idx + 1`, then advances past the counted pixels.  `fuel` is spent
one unit per iteration; since every iteration consumes at least one pixel,
starting the fuel at the pixel count makes the fuel-exhaustion arm
unreachable, so the function agrees with the C++ loop. -/
def cRLEgo : Nat → List Nat → (Nat → Nat) → Nat → Nat → (Nat → Nat) × Nat
  | _, [], buf, idx, _ => (buf, idx)
  | 0, _ :: _, buf, idx, _ => (buf, idx)
  | fuel + 1, p :: rest, buf, idx, maxl =>
    if idx + 1 < maxl then
      cRLEgo fuel (rest.drop (bpRun (bpVal p) idx maxl rest 1 - 1))
        (fun j =>
          if j = idx + 1 then bpVal p
          else if j = idx then bpRun (bpVal p) idx maxl rest 1
          else buf j)
        (idx + 2) maxl
    else (buf, idx)

/-- Byte-pair `int HeroCamCompressor::compressRLE(const Mat&, uint8_t*, int)`
(search.cpp lines 123-140): returns the updated output buffer together with
the used byte count `buf_idx`. -/
def compressRLE (pixels : List Nat) (buf : Nat → Nat) (maxl : Nat) : (Nat → Nat) × Nat :=
  cRLEgo pixels.length pixels buf 0 maxl

/-- Constant `RLE_DATA_MAX_BYTE` from header.h line 11. -/
def RLE_DATA_MAX_BYTE : Nat := 275

/-- Constant `TOTAL_PACKET_BYTE` from header.h line 10. -/
def TOTAL_PACKET_BYTE : Nat := 300

/-- Config-byte assembly fragment of `HeroCamCompressor::process` (search.cpp
lines 108-112): `config` starts at 0x01 and bit 1 is ORed in when the used
RLE length reported by `compressRLE` is at least `RLE_DATA_MAX_BYTE`. -/
def processConfig (binary : List Nat) : Nat :=
  if RLE_DATA_MAX_BYTE ≤ (compressRLE binary (fun _ => 0) RLE_DATA_MAX_BYTE).2 then 1 ||| 2
  else 1

/-- Length of the untruncated byte-pair encoding: `compressRLE` run with a
budget (two bytes per pixel plus slack) that the truncation guard can never
reach, so no run is ever cut off by the buffer bound. -/
def trueRLELen (pixels : List Nat) : Nat :=
  (compressRLE pixels (fun _ => 0) (2 * pixels.length + 2)).2

/-- A 280-pixel strip of alternating dark/bright pixels; every run has length
one, so its true byte-pair encoding needs 560 bytes. -/
def altPix : List Nat := (List.range 280).map fun i => if i % 2 = 0 then 0 else 255

/-- Pairing loop header of `decodeRLE` (search.cpp line 149): bytes are taken
two at a time (`i + 1 < rle_len`), so a final unpaired byte is dropped. -/
def rlePairs : List Nat → List (Nat × Nat)
  | c :: v :: rest => (c, v) :: rlePairs rest
  | _ => []

/-- Pixel value written by `decodeRLE` (search.cpp line 152): level 1 becomes
gray 255, anything else gray 0. -/
def pixelVal (v : Nat) : Nat := if v = 1 then 255 else 0

/-- Sum of the run counts of a pair stream. -/
def runsTotal : List (Nat × Nat) → Nat
  | [] => 0
  | p :: rest => p.1 + runsTotal rest

/-- Writing loop of `decodeRLE` (search.cpp lines 149-155): each pair `(c, v)`
writes `c` copies of its pixel value but stops as soon as the remaining cell
budget is exhausted (`pixelIdx < totalPixels`). -/
def writeRuns : List (Nat × Nat) → Nat → List Nat
  | [], _ => []
  | (c, v) :: rest, budget =>
    List.replicate (min c budget) (pixelVal v) ++ writeRuns rest (budget - min c budget)

/-- `Mat decodeRLE(const uint8_t*, int, Size)` (search.cpp lines 143-157):
the output raster starts as `Mat::zeros`, the pair stream overwrites a prefix,
and any cells it does not reach keep value 0. -/
def decodeRLE (rle : List Nat) (w h : Nat) : List Nat :=
  writeRuns (rlePairs rle) (w * h) ++
    List.replicate (w * h - (writeRuns (rlePairs rle) (w * h)).length) 0

/-- State-machine loop of the packed `HeroCamCompressor::compressRLE`
(hero_image_transmission.h lines 322-339): runs of the raw cell value capped
at 63, each emitted as one byte `(count << 2) | (value & 0x03)`, with a final
push after the scan. -/
def cRLEPackedGo : List Nat → Nat → Nat → List Nat
  | [], cur, count => [(count <<< 2) ||| (cur &&& 3)]
  | p :: rest, cur, count =>
    if p = cur ∧ count < 63 then cRLEPackedGo rest cur (count + 1)
    else ((count <<< 2) ||| (cur &&& 3)) :: cRLEPackedGo rest p 1

/-- Packed `vector<uint8_t> HeroCamCompressor::compressRLE(const Mat&)`
(hero_image_transmission.h lines 309-341): empty image gives an empty stream,
otherwise the scan starts with the first cell and run count 1. -/
def compressRLEPacked : List Nat → List Nat
  | [] => []
  | p :: rest => cRLEPackedGo rest p 1

/-- `HuffmanNode` (hero_image_transmission.h lines 14-22), restructured by the
shapes that actually occur: a leaf carrying a symbol (`value` 0-255), the
single-symbol wrapper whose `right` pointer stays null, and an internal node
with both children.  Every node carries its frequency. -/
inductive HTree where
  | lf (sym : Nat) (freq : Nat)
  | one (freq : Nat) (child : HTree)
  | br (freq : Nat) (left right : HTree)

/-- Frequency stored at the root of a node. -/
def HTree.freq : HTree → Nat
  | .lf _ f => f
  | .one f _ => f
  | .br f _ _ => f

/-- Priority-queue insertion for the min-heap
`priority_queue<shared_ptr<HuffmanNode>, ..., HuffmanCompare>` (HuffmanCompare
orders by `freq` only, so `top()` is a minimum-frequency node).  The queue is
modelled as a list sorted by ascending frequency; a new node goes after
existing nodes of equal frequency.  The source leaves the order among equal
frequencies to the unspecified heap layout; every input evaluated below has
pairwise distinct frequencies at each extraction, where all layouts agree. -/
def pqPush (t : HTree) : List HTree → List HTree
  | [] => [t]
  | h :: rest => if h.freq ≤ t.freq then h :: pqPush t rest else t :: h :: rest

/-- Merge loop `while (pq.size() > 1)` shared by `compressHuffman` (lines
213-223) and `decompressHuffman` (lines 455-465): pop the two lowest-frequency
nodes, merge them under a fresh internal node, push it back.  One unit of fuel
per merge; the callers pass the queue length, which bounds the number of
merges, so the fuel arm is unreachable. -/
def mergeLoop : Nat → List HTree → Option HTree
  | _, [t] => some t
  | fuel + 1, a :: b :: rest => mergeLoop fuel (pqPush (HTree.br (a.freq + b.freq) a b) rest)
  | _, _ => none

/-- Huffman tree construction shared by `compressHuffman` (lines 196-225) and
`decompressHuffman` (lines 439-467): push a leaf per frequency-table entry in
ascending symbol order, wrap a lone symbol under a synthetic internal node
whose `right` child stays null, then run the merge loop.  An empty table makes
the C++ call `pq.top()` on an empty queue, modelled as `none`. -/
def buildHuffTree (freqMap : List (Nat × Nat)) : Option HTree :=
  match freqMap.foldl (fun q p => pqPush (HTree.lf p.1 p.2) q) [] with
  | [] => none
  | [single] => some (HTree.one single.freq single)
  | q => mergeLoop q.length q

/-- `freqMap[byte]++` on a `std::map<uint8_t, int>` (hero_image_transmission.h
lines 190-194): an ordered map kept as an association list sorted by symbol,
default-constructing absent entries at 0 before the increment. -/
def mapBump : List (Nat × Nat) → Nat → List (Nat × Nat)
  | [], k => [(k, 1)]
  | (k', v') :: rest, k =>
    if k < k' then (k, 1) :: (k', v') :: rest
    else if k = k' then (k', v' + 1) :: rest
    else (k', v') :: mapBump rest k

/-- Frequency statistics of `compressHuffman` step 1. -/
def buildFreqMap (l : List Nat) : List (Nat × Nat) := l.foldl mapBump []

/-- `freqMap[symbol] = freq` on a `std::map<uint8_t, int>` (line 417): sorted
insert-or-overwrite. -/
def mapSet : List (Nat × Nat) → Nat → Nat → List (Nat × Nat)
  | [], k, v => [(k, v)]
  | (k', v') :: rest, k, v =>
    if k < k' then (k, v) :: (k', v') :: rest
    else if k = k' then (k, v) :: rest
    else (k', v') :: mapSet rest k v

/-- `buildCodeTable` (hero_image_transmission.h lines 295-306): leaves record
the path, with the empty path replaced by the one-bit code "0"; the wrapper
node only recurses left (its right pointer is null and the null guard
returns). -/
def buildCodeTable : HTree → List Bool → List (Nat × List Bool)
  | .lf s _, code => [(s, if code = [] then [false] else code)]
  | .one _ c, code => buildCodeTable c (code ++ [false])
  | .br _ l r, code => buildCodeTable l (code ++ [false]) ++ buildCodeTable r (code ++ [true])

/-- `codeTable[byte]` lookup (line 235); `map::operator[]` falls back to the
default-constructed empty string for an absent key (never hit by the encoder,
whose table covers every input byte). -/
def ctLookup (table : List (Nat × List Bool)) (b : Nat) : List Bool :=
  match table.find? fun p => p.1 == b with
  | some p => p.2
  | none => []

/-- Big-endian serialization of a 32-bit value, as the four
`push_back((x >> k) & 0xFF)` lines used throughout `compressHuffman`. -/
def be32 (n : Nat) : List Nat := [n / 2 ^ 24 % 256, n / 2 ^ 16 % 256, n / 2 ^ 8 % 256, n % 256]

/-- Bit accumulation `byte = (byte << 1) | bit` (line 282). -/
def toByte (bits : List Bool) : Nat := bits.foldl (fun b bit => b * 2 + if bit then 1 else 0) 0

/-- Bit-packing loop of `compressHuffman` (lines 277-290), eight bits per
byte, MSB first.  The final chunk replays the source's
`byte <<= (8 - bitString.length() % 8)` including its `uint8_t` truncation:
when the bit length is a multiple of 8 the shift distance is 8 and the byte
becomes 0.  Fuel decreases once per 8-bit chunk; starting it at the bit count
makes the fuel arm unreachable. -/
def packBitsGo : Nat → List Bool → Nat → List Nat
  | _, [], _ => []
  | 0, _ :: _, _ => []
  | fuel + 1, b :: rest, totalLen =>
    if (b :: rest).length ≤ 8 then [toByte (b :: rest) * 2 ^ (8 - totalLen % 8) % 256]
    else toByte ((b :: rest).take 8) :: packBitsGo fuel ((b :: rest).drop 8) totalLen

/-- Bit packing of a whole bit string. -/
def packBits (bits : List Bool) : List Nat := packBitsGo bits.length bits bits.length

/-- `vector<uint8_t> HeroCamCompressor::compressHuffman(const vector<uint8_t>&)`
(hero_image_transmission.h lines 168-293).  Empty input returns empty; input
of at most `RAW_THRESHOLD = 200` bytes returns `0xFF`, the length big-endian,
and the raw bytes; otherwise the Huffman header (table size as `uint8_t`,
the frequency table, raw length, packed byte length, bit length) followed by
the packed bits.  The `buildHuffTree` fallback arm is unreachable because a
nonempty input yields a nonempty frequency table. -/
def compressHuffman (rleData : List Nat) : List Nat :=
  if rleData = [] then []
  else if rleData.length ≤ 200 then 255 :: (be32 rleData.length ++ rleData)
  else
    match buildHuffTree (buildFreqMap rleData) with
    | none => []
    | some root =>
      (buildFreqMap rleData).length % 256 ::
        (((buildFreqMap rleData).map fun p => p.1 :: be32 p.2).flatten
          ++ be32 rleData.length
          ++ be32 (((rleData.foldl
              (fun acc b => acc ++ ctLookup (buildCodeTable root []) b) []).length + 7) / 8)
          ++ be32 (rleData.foldl
              (fun acc b => acc ++ ctLookup (buildCodeTable root []) b) []).length
          ++ packBits (rleData.foldl
              (fun acc b => acc ++ ctLookup (buildCodeTable root []) b) []))

/-- Four sequential `compressed[pos++]` reads assembling a big-endian 32-bit
value in `decompressHuffman`; any read past the end of the vector is undefined
behaviour, modelled as `none`. -/
def readBE32 (l : List Nat) (pos : Nat) : Option (Nat × Nat) :=
  match l.get? pos, l.get? (pos + 1), l.get? (pos + 2), l.get? (pos + 3) with
  | some a, some b, some c, some d => some (a * 2 ^ 24 + b * 2 ^ 16 + c * 2 ^ 8 + d, pos + 4)
  | _, _, _, _ => none

/-- Frequency-table reading loop of `decompressHuffman` (lines 409-418): per
entry one symbol byte and one big-endian frequency, every read unchecked. -/
def readTable (l : List Nat) : Nat → Nat → Option (List (Nat × Nat) × Nat)
  | pos, 0 => some ([], pos)
  | pos, n + 1 =>
    match l.get? pos, readBE32 l (pos + 1) with
    | some sym, some fp =>
      match readTable l fp.2 n with
      | some rp => some ((sym, fp.1) :: rp.1, rp.2)
      | none => none
    | _, _ => none

/-- Length field of the raw-bypass header, read by direct indexing at
positions 1-4 after the `size < 5` guard (lines 392-397). -/
def rawDeclaredLen (l : List Nat) : Nat :=
  l.getD 1 0 * 2 ^ 24 + l.getD 2 0 * 2 ^ 16 + l.getD 3 0 * 2 ^ 8 + l.getD 4 0

/-- Bits of one byte, most significant first (`(byte >> j) & 1` for j = 7..0,
line 476). -/
def byteBits (b : Nat) : List Bool :=
  [b / 2 ^ 7 % 2 == 1, b / 2 ^ 6 % 2 == 1, b / 2 ^ 5 % 2 == 1, b / 2 ^ 4 % 2 == 1,
   b / 2 ^ 3 % 2 == 1, b / 2 ^ 2 % 2 == 1, b / 2 % 2 == 1, b % 2 == 1]

/-- Bit-string extraction of `decompressHuffman` (lines 470-481): unpack up to
`compLen` bytes starting at `pos`, never reading past the vector, then keep
the first `bitLen` bits (`substr(0, bitLen)`; the early inner `break` only
saves work and does not change this result). -/
def unpackBits (l : List Nat) (pos compLen bitLen : Nat) : List Bool :=
  (((l.drop pos).take compLen).map byteBits).flatten.take bitLen

/-- One step of the decoding walk (line 488):
`current = (bit == '0') ? current->left : current->right`.  Taking the null
`right` pointer of the single-symbol wrapper, or stepping from a leaf (both
null children), dereferences null on the following `current->value` access,
modelled as `none`. -/
def stepBit : HTree → Bool → Option HTree
  | .br _ left _, false => some left
  | .br _ _ right, true => some right
  | .one _ c, false => some c
  | .one _ _, true => none
  | .lf _ _, _ => none

/-- Decoding walk of `decompressHuffman` (lines 484-496): follow each bit from
the current node, emit the symbol and reset to the root at every leaf, and
stop early once exactly `target` (`rleDataLen`) symbols are out. -/
def decodeBits (root : HTree) : List Bool → HTree → Nat → List Nat → Option (List Nat)
  | [], _, _, acc => some acc
  | bit :: rest, cur, target, acc =>
    match stepBit cur bit with
    | none => none
    | some next =>
      match next with
      | .lf s _ =>
        if (acc ++ [s]).length = target then some (acc ++ [s])
        else decodeBits root rest root target (acc ++ [s])
      | .one f c => decodeBits root rest (.one f c) target acc
      | .br f a b => decodeBits root rest (.br f a b) target acc

/-- `vector<uint8_t> decompressHuffman(const vector<uint8_t>&)`
(hero_image_transmission.h lines 380-499).  Empty input and the two guarded
raw-bypass failure cases return the empty vector (`some []`).  The raw-branch
guard at line 398 compares `compressed.size()` against `5 + len` computed in
`uint32_t` (`len` is `uint32_t` and 5 an `int`, so the sum wraps modulo 2^32
for declared lengths of at least 2^32 - 5); when that guard passes, the copy
at line 401 reads the range from `begin() + 5` to `begin() + 5 + len` (the
true, unwrapped extent in pointer arithmetic), which stays inside the buffer
only when `5 + len` is at most the size — otherwise the read goes past the
end (`none`).  In the Huffman branch every header read is unchecked, so a
truncated table or length field is an out-of-bounds access (`none`), and an
empty rebuilt table makes `pq.top()` undefined (`none`). -/
def decompressHuffman (compressed : List Nat) : Option (List Nat) :=
  if compressed = [] then some []
  else if compressed.headD 0 = 255 then
    if compressed.length < 5 then some []
    else if compressed.length < (5 + rawDeclaredLen compressed) % 2 ^ 32 then some []
    else if 5 + rawDeclaredLen compressed ≤ compressed.length then
      some ((compressed.drop 5).take (rawDeclaredLen compressed))
    else none
  else
    match readTable compressed 1 (compressed.headD 0) with
    | none => none
    | some tp =>
      match readBE32 compressed tp.2 with
      | none => none
      | some rl =>
        match readBE32 compressed rl.2 with
        | none => none
        | some cl =>
          match readBE32 compressed cl.2 with
          | none => none
          | some bl =>
            match buildHuffTree (tp.1.foldl (fun m p => mapSet m p.1 p.2) []) with
            | none => none
            | some root =>
              decodeBits root (unpackBits compressed bl.2 cl.1 bl.1) root rl.1 []

/-- A 208-byte input for the Huffman branch whose encoded bit length (207
one-bit codes for symbol 0 plus one for symbol 1) is exactly 208, a multiple
of 8. -/
def xJam : List Nat := List.replicate 207 0 ++ [1]

/-- `struct BallInfo` (header.h lines 29-33): one candidate circle in
target-resolution pixel units. -/
structure BallInfo where
  x : Nat
  y : Nat
  r : Nat

/-- `struct MqttPacket` (header.h lines 35-43) under `#pragma pack(1)`: the
fixed-size arrays `balls[4]`, `rle_data[RLE_DATA_MAX_BYTE]` and
`reserved[RESERVED_BYTE]` are modelled as functions from bounded indices, so
a packet structurally always carries 4 detection slots, 275 payload bytes and
9 reserved bytes. -/
structure MqttPacket where
  frame_seq : Nat
  config : Nat
  width : Nat
  height : Nat
  balls : Fin 4 → BallInfo
  rle_data : Fin 275 → Nat
  reserved : Fin 9 → Nat

/-- Byte layout of one `BallInfo` (x, y, r — one byte each). -/
def serBall (b : BallInfo) : List Nat := [b.x, b.y, b.r]

/-- Wire layout of `MqttPacket` under `#pragma pack(1)`: the fields in
declaration order with no padding. -/
def serializePacket (p : MqttPacket) : List Nat :=
  [p.frame_seq, p.config, p.width, p.height]
    ++ serBall (p.balls 0) ++ serBall (p.balls 1) ++ serBall (p.balls 2) ++ serBall (p.balls 3)
    ++ List.ofFn p.rle_data ++ List.ofFn p.reserved

/-- State of `class RingBuffer` (thread.h lines 11-27): capacity, live count,
head and tail indices, and the backing `vector<Mat>` as a function from slot
index to frame (frames abstracted as natural numbers). -/
structure RBState where
  capacity : Nat
  size : Nat
  head : Nat
  tail : Nat
  buffer : Nat → Nat

/-- `RingBuffer::RingBuffer(int)` (search.cpp lines 164-165): everything
zeroed, default-constructed (empty) frames in every slot. -/
def RBState.init (cap : Nat) : RBState :=
  { capacity := cap, size := 0, head := 0, tail := 0, buffer := fun _ => 0 }

/-- `bool RingBuffer::push(Mat&&)` (search.cpp lines 167-173): refuse when
`size_ >= capacity_`, otherwise store at `tail_`, advance `tail_` modulo the
capacity and grow the count. -/
def RBState.push (s : RBState) (f : Nat) : RBState × Bool :=
  if s.capacity ≤ s.size then (s, false)
  else
    ({ capacity := s.capacity
       size := s.size + 1
       head := s.head
       tail := (s.tail + 1) % s.capacity
       buffer := fun j => if j = s.tail then f else s.buffer j }, true)

/-- `bool RingBuffer::pop(Mat&)` (search.cpp lines 175-181): refuse when
`size_ == 0`, otherwise move the frame out of `head_`, advance `head_` modulo
the capacity and shrink the count.  The moved-from slot keeps its stale value
in the model; it is never read again before being overwritten by a push. -/
def RBState.pop (s : RBState) : RBState × Option Nat :=
  if s.size = 0 then (s, none)
  else
    ({ capacity := s.capacity
       size := s.size - 1
       head := (s.head + 1) % s.capacity
       tail := s.tail
       buffer := s.buffer }, some (s.buffer s.head))

/-- Live contents of the ring, oldest first: the `size` slots starting at
`head`, wrapping modulo the capacity. -/
def RBState.abs (s : RBState) : List Nat :=
  (List.range s.size).map fun i => s.buffer ((s.head + i) % s.capacity)

/-- Structural invariant of the ring: the count never exceeds the capacity,
`tail` is `head + size` modulo the capacity, and `head` is a valid slot index
whenever the capacity is positive. -/
def RBState.inv (s : RBState) : Prop :=
  s.size ≤ s.capacity ∧ s.tail = (s.head + s.size) % s.capacity ∧
    (s.capacity = 0 ∨ s.head < s.capacity)

/-- One queue operation issued by a client. -/
inductive QOp where
  | enq (f : Nat)
  | deq
deriving DecidableEq

/-- Observable outcome of one queue operation: the boolean returned by push,
or the optional frame returned by pop. -/
inductive QEvent where
  | enq (ok : Bool)
  | deq (r : Option Nat)
deriving DecidableEq

/-- Run a sequence of operations against the RingBuffer, collecting the
observable outcomes. -/
def rbRun : RBState → List QOp → RBState × List QEvent
  | s, [] => (s, [])
  | s, QOp.enq f :: ops =>
    ((rbRun (s.push f).1 ops).1, QEvent.enq (s.push f).2 :: (rbRun (s.push f).1 ops).2)
  | s, QOp.deq :: ops =>
    ((rbRun s.pop.1 ops).1, QEvent.deq s.pop.2 :: (rbRun s.pop.1 ops).2)

/-- Modelled from the spec: the reference bounded FIFO queue of capacity
`cap` — push appends at the back unless the queue is full. -/
def specPush (cap : Nat) (q : List Nat) (f : Nat) : List Nat × Bool :=
  if cap ≤ q.length then (q, false) else (q ++ [f], true)

/-- Modelled from the spec: the reference FIFO pop — remove from the front,
empty sentinel when there is nothing. -/
def specPop (q : List Nat) : List Nat × Option Nat :=
  match q with
  | [] => ([], none)
  | f :: rest => (rest, some f)

/-- Run a sequence of operations against the reference FIFO queue. -/
def specRun (cap : Nat) : List Nat → List QOp → List Nat × List QEvent
  | q, [] => (q, [])
  | q, QOp.enq f :: ops =>
    ((specRun cap (specPush cap q f).1 ops).1,
      QEvent.enq (specPush cap q f).2 :: (specRun cap (specPush cap q f).1 ops).2)
  | q, QOp.deq :: ops =>
    ((specRun cap (specPop q).1 ops).1,
      QEvent.deq (specPop q).2 :: (specRun cap (specPop q).1 ops).2)

/-- Claim C1: the entropy round trip `decompress(compress(X)) == X` fails on
the code for `xJam` (207 zero bytes followed by one byte 1, length 208, tree
branch).  The total code bit length is 208, a multiple of 8, so the packing
step executes `byte <<= (8 - 208 % 8)`, a shift by 8 that truncates the final
packed byte (0xFE) to 0; the decoder then reads the last eight bits as zeros
and emits eight copies of the wrong symbol.  The round trip returns
200 zero bytes followed by eight 1 bytes instead of the input. -/
theorem huffman_roundtrip_fails_c1 :
    decompressHuffman (compressHuffman xJam) =
      some (List.replicate 200 0 ++ List.replicate 8 1) ∧
    decompressHuffman (compressHuffman xJam) ≠ some xJam := by decide

/-- Claim C2: `process` never sets the truncation bit.  `compressRLE` admits
a pair only while `buf_idx + 1 < max_len`, so with `max_len = 275` it returns
at most 274, and the flag condition `rle_len >= RLE_DATA_MAX_BYTE` is
unsatisfiable.  Concretely, the alternating strip `altPix` has a true
byte-pair encoding of 560 bytes (beyond the 275-byte payload), the encoder
stops at 274 used bytes, and the config byte stays 0x01 — bit 1 clear. -/
theorem truncation_flag_never_set_c2 :
    275 < trueRLELen altPix ∧
    (compressRLE altPix (fun _ => 0) RLE_DATA_MAX_BYTE).2 = 274 ∧
    processConfig altPix = 1 := by decide

/-- Claim C3: every serialized `MqttPacket` is exactly 300 bytes — 4 header
bytes, 4 detections of 3 bytes, 275 payload bytes and 9 reserved bytes —
independent of the stored content. -/
theorem packet_size_300_c3 (p : MqttPacket) : (serializePacket p).length = 300 := by
  simp only [serializePacket, serBall, List.length_append, List.length_cons,
    List.length_ofFn, List.length_nil]

/-- Claim C5, counterexample: on the one-byte input `[5]` (a Huffman-branch
header announcing a five-entry frequency table with no table behind it) the
decoder does not return an empty result: it reads `compressed[1]` past the
end of the buffer, which the embedding reports as `none`. -/
theorem decompress_truncated_reads_oob_c5 : decompressHuffman [5] = none := by decide

/-- Claim C7: the 4×1 raster with cell levels 0,0,0,1 — stored by the
thresholded binary image as pixel bytes 0,0,0,255 (`pixelVal`) — encodes to
the byte-pair stream 3,0,1,1, and the same level sequence encodes to the
packed stream 0x0C, 0x05. -/
theorem worked_example_c7 :
    ((compressRLE ([0, 0, 0, 1].map pixelVal) (fun _ => 0) 275).2 = 4 ∧
      (compressRLE ([0, 0, 0, 1].map pixelVal) (fun _ => 0) 275).1 0 = 3 ∧
      (compressRLE ([0, 0, 0, 1].map pixelVal) (fun _ => 0) 275).1 1 = 0 ∧
      (compressRLE ([0, 0, 0, 1].map pixelVal) (fun _ => 0) 275).1 2 = 1 ∧
      (compressRLE ([0, 0, 0, 1].map pixelVal) (fun _ => 0) 275).1 3 = 1) ∧
    compressRLEPacked [0, 0, 0, 1] = [0x0C, 0x05] := by decide

/-- Claim C9: `push` on a full RingBuffer (`size_ >= capacity_`) returns
false with the state — indices, count and stored frames — unchanged, and
`pop` on an empty RingBuffer returns the empty sentinel with the state
unchanged; both conditions are reported through the return value alone. -/
theorem ringbuffer_full_empty_c9 (s : RBState) (f : Nat) :
    (s.capacity ≤ s.size → s.push f = (s, false)) ∧
    (s.size = 0 → s.pop = (s, none)) := by
  constructor
  · intro h
    unfold RBState.push
    rw [if_pos h]
  · intro h
    unfold RBState.pop
    rw [if_pos h]

/-- Witness for C9 at concrete states: a capacity-1 buffer holding one frame
rejects a push, and a freshly constructed capacity-2 buffer rejects a pop. -/
theorem ringbuffer_full_empty_c9_witness :
    RBState.push ((RBState.init 1).push 5).1 7 = (((RBState.init 1).push 5).1, false) ∧
    RBState.pop (RBState.init 2) = (RBState.init 2, none) :=
  ⟨(ringbuffer_full_empty_c9 ((RBState.init 1).push 5).1 7).1 (by decide),
   (ringbuffer_full_empty_c9 (RBState.init 2) 0).2 (by decide)⟩

/-- Value of the raw-bypass length field on any list with at least five
explicit leading entries. -/
theorem rawDeclaredLen_cons (x a b c d : Nat) (l : List Nat) :
    rawDeclaredLen (x :: a :: b :: c :: d :: l) =
      a * 2 ^ 24 + b * 2 ^ 16 + c * 2 ^ 8 + d := rfl

/-- Claim C5, amended: only the raw-bypass branch checks its header, and only
within 32-bit arithmetic — for every byte sequence starting with 0xFF whose
length is below 5 plus the declared payload length, and whose declared length
keeps the guard sum `5 + len` below 2^32 (no `uint32_t` wrap),
`decompressHuffman` returns the empty result without reading past the buffer.
For declared lengths of at least 2^32 - 5 the wrapped guard passes and even
the raw branch reads past the buffer (see `decompress_raw_wrap_oob`); in the
Huffman-table branch a truncated header is read out of bounds with no check
at all (see the counterexample). -/
theorem decompress_raw_guard_c5 (l : List Nat) (_hbytes : ∀ b ∈ l, b < 256)
    (hhd : l.headD 0 = 255) (hshort : l.length < 5 + rawDeclaredLen l)
    (hnowrap : rawDeclaredLen l < 2 ^ 32 - 5) :
    decompressHuffman l = some [] := by
  have hne : l ≠ [] := by
    intro h
    rw [h] at hhd
    simp at hhd
  unfold decompressHuffman
  rw [if_neg hne, if_pos hhd]
  by_cases h5 : l.length < 5
  · rw [if_pos h5]
  · have hmod : (5 + rawDeclaredLen l) % 2 ^ 32 = 5 + rawDeclaredLen l :=
      Nat.mod_eq_of_lt (by omega)
    rw [if_neg h5, hmod, if_pos hshort]

/-- Witness for C5 at a concrete input: a raw-bypass header declaring nine
payload bytes with none present decodes to the empty result. -/
theorem decompress_raw_guard_c5_witness : decompressHuffman [255, 0, 0, 0, 9] = some [] :=
  decompress_raw_guard_c5 [255, 0, 0, 0, 9] (by decide) (by decide) (by decide) (by decide)

/-- At a five-byte raw-bypass header declaring length 0xFFFFFFFF the 32-bit
guard sum wraps to 4, the check `size() < 4` fails, and the copy then reads
the declared four gigabytes starting past the five-byte buffer. -/
theorem decompress_raw_wrap_oob : decompressHuffman [255, 255, 255, 255, 255] = none := by
  decide

/-- Claim C6: for every nonempty input of at most 200 bytes, `compressHuffman`
takes the raw-bypass branch — no tree is built — and emits exactly 0xFF, the
input length as four big-endian bytes, then the input verbatim; and
`decompressHuffman` recovers the original input from that output. -/
theorem raw_bypass_roundtrip_c6 (l : List Nat) (hne : l ≠ []) (hlen : l.length ≤ 200) :
    compressHuffman l = 255 :: (be32 l.length ++ l) ∧
    decompressHuffman (compressHuffman l) = some l := by
  have hcomp : compressHuffman l = 255 :: (be32 l.length ++ l) := by
    unfold compressHuffman
    rw [if_neg hne, if_pos hlen]
  refine ⟨hcomp, ?_⟩
  have hbe : be32 l.length = [0, 0, 0, l.length] := by
    simp only [be32, List.cons.injEq, and_true]
    omega
  rw [hcomp, hbe]
  show decompressHuffman (255 :: 0 :: 0 :: 0 :: l.length :: l) = some l
  have h1 : ¬(255 :: 0 :: 0 :: 0 :: l.length :: l = []) := by simp
  have h2 : (255 :: 0 :: 0 :: 0 :: l.length :: l).headD 0 = 255 := by simp
  have hr : rawDeclaredLen (255 :: 0 :: 0 :: 0 :: l.length :: l) = l.length := by
    rw [rawDeclaredLen_cons]
    omega
  have h3 : ¬((255 :: 0 :: 0 :: 0 :: l.length :: l).length < 5) := by
    simp only [List.length_cons]
    omega
  have h4 : ¬((255 :: 0 :: 0 :: 0 :: l.length :: l).length <
      (5 + rawDeclaredLen (255 :: 0 :: 0 :: 0 :: l.length :: l)) % 2 ^ 32) := by
    rw [hr, Nat.mod_eq_of_lt (by omega)]
    simp only [List.length_cons]
    omega
  have h5 : 5 + rawDeclaredLen (255 :: 0 :: 0 :: 0 :: l.length :: l) ≤
      (255 :: 0 :: 0 :: 0 :: l.length :: l).length := by
    rw [hr]
    simp only [List.length_cons]
    omega
  unfold decompressHuffman
  rw [if_neg h1, if_pos h2, if_neg h3, if_neg h4, if_pos h5, hr]
  show some (List.take l.length l) = some l
  rw [List.take_length]

/-- Witness for C6 at a concrete input. -/
theorem raw_bypass_roundtrip_c6_witness :
    compressHuffman [1, 2, 3] = 255 :: (be32 [1, 2, 3].length ++ [1, 2, 3]) ∧
    decompressHuffman (compressHuffman [1, 2, 3]) = some [1, 2, 3] :=
  raw_bypass_roundtrip_c6 [1, 2, 3] (by decide) (by decide)

/-- The writing loop emits `min (sum of counts) budget` cells. -/
theorem writeRuns_length (ps : List (Nat × Nat)) (b : Nat) :
    (writeRuns ps b).length = min (runsTotal ps) b := by
  induction ps generalizing b with
  | nil => simp [writeRuns, runsTotal]
  | cons p rest ih =>
    obtain ⟨c, v⟩ := p
    simp only [writeRuns, runsTotal, List.length_append, List.length_replicate, ih]
    omega

/-- With an exhausted budget nothing is written. -/
theorem writeRuns_zero (ps : List (Nat × Nat)) : writeRuns ps 0 = [] := by
  induction ps with
  | nil => rfl
  | cons p rest ih =>
    obtain ⟨c, v⟩ := p
    simp [writeRuns, ih]

/-- Once the run counts of a prefix already reach the budget, appended pairs
change nothing. -/
theorem writeRuns_saturated (ps qs : List (Nat × Nat)) (b : Nat) (h : b ≤ runsTotal ps) :
    writeRuns (ps ++ qs) b = writeRuns ps b := by
  induction ps generalizing b with
  | nil =>
    simp only [runsTotal, Nat.le_zero] at h
    subst h
    simp [writeRuns, writeRuns_zero]
  | cons p rest ih =>
    obtain ⟨c, v⟩ := p
    simp only [runsTotal] at h
    simp only [List.cons_append, writeRuns]
    congr 1
    exact ih (b - min c b) (by omega)

/-- Dropping a final unpaired byte does not change the pair stream. -/
theorem rlePairs_take_even : ∀ l : List Nat,
    rlePairs (l.take (2 * (l.length / 2))) = rlePairs l
  | [] => by simp [rlePairs]
  | [a] => by simp [rlePairs]
  | a :: b :: rest => by
    have h : 2 * ((a :: b :: rest).length / 2) = 2 * (rest.length / 2) + 2 := by
      simp only [List.length_cons]
      omega
    rw [h]
    show (a, b) :: rlePairs (rest.take (2 * (rest.length / 2))) = (a, b) :: rlePairs rest
    rw [rlePairs_take_even rest]

/-- The pair stream of an extended byte stream extends the original pair
stream (the trailing odd byte, if any, pairs with the first appended byte). -/
theorem rlePairs_append_ex : ∀ l l2 : List Nat,
    ∃ qs, rlePairs (l ++ l2) = rlePairs l ++ qs
  | [], l2 => ⟨rlePairs l2, by simp [rlePairs]⟩
  | [a], l2 => ⟨rlePairs (a :: l2), by
      show rlePairs (a :: l2) = rlePairs [a] ++ rlePairs (a :: l2)
      rfl⟩
  | a :: b :: rest, l2 => by
    obtain ⟨qs, h⟩ := rlePairs_append_ex rest l2
    refine ⟨qs, ?_⟩
    show (a, b) :: rlePairs (rest ++ l2) = ((a, b) :: rlePairs rest) ++ qs
    rw [h]
    rfl

/-- Reading a replicated list inside its bounds gives the replicated value. -/
theorem getD_replicate_lt (n i a d : Nat) (h : i < n) :
    (List.replicate n a).getD i d = a := by
  induction n generalizing i with
  | zero => omega
  | succ m ih =>
    cases i with
    | zero => rfl
    | succ j =>
      simp only [List.replicate, List.getD_cons_succ]
      exact ih j (by omega)

/-- Claim C4: for every byte stream and raster size, `decodeRLE` produces
exactly `w * h` cells; a final unpaired byte is ignored (decoding equals
decoding the even-length prefix); once the pairs already present cover all
cells, any appended bytes change nothing; and every cell beyond the written
prefix keeps level 0. -/
theorem decodeRLE_cells_c4 (rle : List Nat) (w h : Nat) :
    (decodeRLE rle w h).length = w * h ∧
    decodeRLE (rle.take (2 * (rle.length / 2))) w h = decodeRLE rle w h ∧
    (∀ extra : List Nat, w * h ≤ runsTotal (rlePairs rle) →
      decodeRLE (rle ++ extra) w h = decodeRLE rle w h) ∧
    (∀ i : Nat, (writeRuns (rlePairs rle) (w * h)).length ≤ i → i < w * h →
      (decodeRLE rle w h).getD i 255 = 0) := by
  refine ⟨?_, ?_, ?_, ?_⟩
  · simp only [decodeRLE, List.length_append, List.length_replicate, writeRuns_length]
    omega
  · unfold decodeRLE
    rw [rlePairs_take_even]
  · intro extra hsat
    obtain ⟨qs, hq⟩ := rlePairs_append_ex rle extra
    unfold decodeRLE
    rw [hq, writeRuns_saturated _ _ _ hsat]
  · intro i hlo hhi
    unfold decodeRLE
    rw [List.getD_append_right _ _ _ _ hlo]
    exact getD_replicate_lt _ _ _ _ (by
      have hw := writeRuns_length (rlePairs rle) (w * h)
      omega)

/-- Witness for C4 at concrete inputs: the stream 2,1 into a 2×2 raster
fills two cells and leaves the rest at 0; the stream 5,1 with trailing junk
appended decodes unchanged because its single run already covers the raster;
the odd trailing byte of 2,1,9 is ignored. -/
theorem decodeRLE_cells_c4_witness :
    (decodeRLE [2, 1] 2 2).length = 4 ∧
    decodeRLE ([2, 1, 9].take (2 * ([2, 1, 9].length / 2))) 2 2 = decodeRLE [2, 1, 9] 2 2 ∧
    decodeRLE ([5, 1] ++ [9, 0, 7]) 2 2 = decodeRLE [5, 1] 2 2 ∧
    (decodeRLE [2, 1] 2 2).getD 3 255 = 0 :=
  ⟨(decodeRLE_cells_c4 [2, 1] 2 2).1,
   (decodeRLE_cells_c4 [2, 1, 9] 2 2).2.1,
   (decodeRLE_cells_c4 [5, 1] 2 2).2.2.1 [9, 0, 7] (by decide),
   (decodeRLE_cells_c4 [2, 1] 2 2).2.2.2 3 (by decide) (by decide)⟩

/-- Invariants of the byte-pair encoder loop: starting from an even write
index, the returned used length is even, at least the starting index, at most
`max idx maxl`, and every buffer cell below the starting index or at or above
the returned length keeps its previous value. -/
theorem cRLEgo_spec (fuel : Nat) : ∀ (l : List Nat) (buf : Nat → Nat) (idx maxl : Nat),
    idx % 2 = 0 →
    (cRLEgo fuel l buf idx maxl).2 % 2 = 0 ∧
    idx ≤ (cRLEgo fuel l buf idx maxl).2 ∧
    (cRLEgo fuel l buf idx maxl).2 ≤ max idx maxl ∧
    (∀ j, j < idx ∨ (cRLEgo fuel l buf idx maxl).2 ≤ j →
      (cRLEgo fuel l buf idx maxl).1 j = buf j) := by
  induction fuel with
  | zero =>
    intro l buf idx maxl heven
    cases l with
    | nil => exact ⟨heven, Nat.le_refl _, Nat.le_max_left _ _, fun j _ => rfl⟩
    | cons p rest => exact ⟨heven, Nat.le_refl _, Nat.le_max_left _ _, fun j _ => rfl⟩
  | succ f ih =>
    intro l buf idx maxl heven
    cases l with
    | nil => exact ⟨heven, Nat.le_refl _, Nat.le_max_left _ _, fun j _ => rfl⟩
    | cons p rest =>
      simp only [cRLEgo]
      by_cases hlt : idx + 1 < maxl
      · rw [if_pos hlt]
        obtain ⟨h1, h2, h3, h4⟩ := ih (rest.drop (bpRun (bpVal p) idx maxl rest 1 - 1))
          (fun j =>
            if j = idx + 1 then bpVal p
            else if j = idx then bpRun (bpVal p) idx maxl rest 1
            else buf j)
          (idx + 2) maxl (by omega)
        refine ⟨h1, by omega, by omega, ?_⟩
        intro j hj
        rw [h4 j (by omega)]
        have hj1 : j ≠ idx + 1 := by omega
        have hj2 : j ≠ idx := by omega
        simp only [if_neg hj1, if_neg hj2]
      · rw [if_neg hlt]
        exact ⟨heven, Nat.le_refl _, Nat.le_max_left _ _, fun j _ => rfl⟩

/-- Claim C10: for every pixel sequence and every budget of at least one
byte, the byte-pair `compressRLE` returns an even used length that never
exceeds the budget, and it leaves every buffer cell at or beyond the returned
length untouched — so the 275-byte packet payload is never overrun. -/
theorem compressRLE_safe_c10 (pixels : List Nat) (buf : Nat → Nat) (maxl : Nat)
    (hml : 1 ≤ maxl) :
    (compressRLE pixels buf maxl).2 % 2 = 0 ∧
    (compressRLE pixels buf maxl).2 ≤ maxl ∧
    (∀ j, (compressRLE pixels buf maxl).2 ≤ j → (compressRLE pixels buf maxl).1 j = buf j) := by
  unfold compressRLE
  obtain ⟨h1, h2, h3, h4⟩ := cRLEgo_spec pixels.length pixels buf 0 maxl (by omega)
  refine ⟨h1, by omega, fun j hj => h4 j (Or.inr hj)⟩

/-- Witness for C10 at a concrete input: three pixels, budget 275, buffer
initialized at 7 — the used length is even and within budget, and cell 5
(beyond the four used bytes) still holds 7. -/
theorem compressRLE_safe_c10_witness :
    (compressRLE [200, 0, 0] (fun _ => 7) 275).2 % 2 = 0 ∧
    (compressRLE [200, 0, 0] (fun _ => 7) 275).2 ≤ 275 ∧
    (compressRLE [200, 0, 0] (fun _ => 7) 275).1 5 = 7 :=
  ⟨(compressRLE_safe_c10 [200, 0, 0] (fun _ => 7) 275 (by decide)).1,
   (compressRLE_safe_c10 [200, 0, 0] (fun _ => 7) 275 (by decide)).2.1,
   (compressRLE_safe_c10 [200, 0, 0] (fun _ => 7) 275 (by decide)).2.2 5 (by decide)⟩

/-- The abstraction of a ring state has as many entries as the live count. -/
theorem rb_abs_length (s : RBState) : s.abs.length = s.size := by
  simp [RBState.abs]


/-- One push step of the RingBuffer matches one push of the reference FIFO
queue: same boolean outcome, abstraction extended by the same frame, the
invariant and the capacity preserved. -/
theorem rb_push_sim (s : RBState) (f : Nat) (hinv : s.inv) :
    (s.push f).2 = (specPush s.capacity s.abs f).2 ∧
    (s.push f).1.abs = (specPush s.capacity s.abs f).1 ∧
    (s.push f).1.inv ∧ (s.push f).1.capacity = s.capacity := by
  obtain ⟨hsz, htl, hhd⟩ := hinv
  by_cases hfull : s.capacity ≤ s.size
  · have hq : s.capacity ≤ s.abs.length := by
      rw [rb_abs_length]
      exact hfull
    have hpush : s.push f = (s, false) := by
      simp only [RBState.push, if_pos hfull]
    have hspec : specPush s.capacity s.abs f = (s.abs, false) := by
      simp only [specPush, if_pos hq]
    rw [hpush, hspec]
    exact ⟨rfl, rfl, ⟨hsz, htl, hhd⟩, rfl⟩
  · have hq : ¬s.capacity ≤ s.abs.length := by
      rw [rb_abs_length]
      exact hfull
    have hcap : 0 < s.capacity := by omega
    have hpush : s.push f =
        ({ capacity := s.capacity
           size := s.size + 1
           head := s.head
           tail := (s.tail + 1) % s.capacity
           buffer := fun j => if j = s.tail then f else s.buffer j }, true) := by
      simp only [RBState.push, if_neg hfull]
    have hspec : specPush s.capacity s.abs f = (s.abs ++ [f], true) := by
      simp only [specPush, if_neg hq]
    rw [hpush, hspec]
    refine ⟨rfl, ?_, ⟨?_, ?_, ?_⟩, rfl⟩
    · show (List.range (s.size + 1)).map
          (fun i => if (s.head + i) % s.capacity = s.tail then f
            else s.buffer ((s.head + i) % s.capacity)) = s.abs ++ [f]
      rw [List.range_succ, List.map_append]
      congr 1
      · apply List.map_congr_left
        intro i hi
        rw [List.mem_range] at hi
        have hne : (s.head + i) % s.capacity ≠ s.tail := by
          rw [htl]
          intro hc
          have h2 : i % s.capacity = s.size % s.capacity :=
            Nat.ModEq.add_left_cancel' s.head hc
          rw [Nat.mod_eq_of_lt (by omega), Nat.mod_eq_of_lt (by omega)] at h2
          omega
        simp only [if_neg hne]
      · simp only [List.map_cons, List.map_nil]
        rw [show (s.head + s.size) % s.capacity = s.tail from htl.symm]
        simp
    · show s.size + 1 ≤ s.capacity
      omega
    · show (s.tail + 1) % s.capacity = (s.head + (s.size + 1)) % s.capacity
      rw [htl, Nat.mod_add_mod]
      congr 1
    · show s.capacity = 0 ∨ s.head < s.capacity
      exact hhd

/-- One pop step of the RingBuffer matches one pop of the reference FIFO
queue: same returned frame, abstraction shortened at the front, the invariant
and the capacity preserved. -/
theorem rb_pop_sim (s : RBState) (hinv : s.inv) :
    s.pop.2 = (specPop s.abs).2 ∧
    s.pop.1.abs = (specPop s.abs).1 ∧
    s.pop.1.inv ∧ s.pop.1.capacity = s.capacity := by
  obtain ⟨hsz, htl, hhd⟩ := hinv
  by_cases hz : s.size = 0
  · have habs : s.abs = [] := by simp [RBState.abs, hz]
    have hpop : s.pop = (s, none) := by
      simp only [RBState.pop, if_pos hz]
    rw [hpop, habs]
    exact ⟨rfl, rfl, ⟨hsz, htl, hhd⟩, rfl⟩
  · have hcap : 0 < s.capacity := by omega
    have hhd' : s.head < s.capacity := by
      rcases hhd with h | h
      · omega
      · exact h
    obtain ⟨k, hk⟩ : ∃ k, s.size = k + 1 := ⟨s.size - 1, by omega⟩
    have habs : s.abs = s.buffer s.head ::
        (List.range k).map (fun i => s.buffer ((s.head + 1 + i) % s.capacity)) := by
      unfold RBState.abs
      rw [hk, List.range_succ_eq_map]
      simp only [List.map_cons, List.map_map]
      congr 1
      · rw [Nat.add_zero, Nat.mod_eq_of_lt hhd']
      · apply List.map_congr_left
        intro i hi
        simp only [Function.comp]
        congr 2
        omega
    have hpop : s.pop =
        ({ capacity := s.capacity
           size := s.size - 1
           head := (s.head + 1) % s.capacity
           tail := s.tail
           buffer := s.buffer }, some (s.buffer s.head)) := by
      simp only [RBState.pop, if_neg hz]
    rw [hpop, habs]
    refine ⟨rfl, ?_, ⟨?_, ?_, ?_⟩, rfl⟩
    · show (List.range (s.size - 1)).map
          (fun i => s.buffer (((s.head + 1) % s.capacity + i) % s.capacity)) =
        (List.range k).map (fun i => s.buffer ((s.head + 1 + i) % s.capacity))
      rw [hk]
      simp only [Nat.add_sub_cancel]
      apply List.map_congr_left
      intro i hi
      congr 1
      rw [Nat.mod_add_mod]
    · show s.size - 1 ≤ s.capacity
      omega
    · show s.tail = ((s.head + 1) % s.capacity + (s.size - 1)) % s.capacity
      rw [Nat.mod_add_mod, htl, hk]
      congr 1
      omega
    · show s.capacity = 0 ∨ (s.head + 1) % s.capacity < s.capacity
      exact Or.inr (Nat.mod_lt _ hcap)

/-- Every run of the RingBuffer from an invariant state produces the trace of
the reference FIFO queue started at its abstraction. -/
theorem rb_run_sim (ops : List QOp) : ∀ s : RBState, s.inv →
    (rbRun s ops).2 = (specRun s.capacity s.abs ops).2 ∧
    (rbRun s ops).1.abs = (specRun s.capacity s.abs ops).1 := by
  induction ops with
  | nil =>
    intro s _
    exact ⟨rfl, rfl⟩
  | cons op rest ih =>
    intro s hinv
    cases op with
    | enq f =>
      obtain ⟨he, ha, hi, hc⟩ := rb_push_sim s f hinv
      obtain ⟨ih1, ih2⟩ := ih (s.push f).1 hi
      rw [hc, ha] at ih1 ih2
      simp only [rbRun, specRun]
      exact ⟨by rw [he, ih1], ih2⟩
    | deq =>
      obtain ⟨he, ha, hi, hc⟩ := rb_pop_sim s hinv
      obtain ⟨ih1, ih2⟩ := ih s.pop.1 hi
      rw [hc, ha] at ih1 ih2
      simp only [rbRun, specRun]
      exact ⟨by rw [he, ih1], ih2⟩

/-- Claim C8: the RingBuffer refines the reference FIFO queue of its
capacity.  For every sequence of interleaved push and pop operations from the
empty state, the RingBuffer produces exactly the reference queue's trace of
push outcomes and popped frames — frames come out in push order, none lost,
none duplicated — and its final live contents abstract to the reference
queue's final contents. -/
theorem ringbuffer_refines_fifo_c8 (cap : Nat) (ops : List QOp) :
    (rbRun (RBState.init cap) ops).2 = (specRun cap [] ops).2 ∧
    (rbRun (RBState.init cap) ops).1.abs = (specRun cap [] ops).1 := by
  have hinv : (RBState.init cap).inv := by
    refine ⟨Nat.zero_le _, ?_, ?_⟩
    · show (0 : Nat) = (0 + 0) % cap
      simp
    · show cap = 0 ∨ 0 < cap
      omega
  have habs : (RBState.init cap).abs = [] := by simp [RBState.abs, RBState.init]
  obtain ⟨h1, h2⟩ := rb_run_sim ops (RBState.init cap) hinv
  rw [habs] at h1 h2
  exact ⟨h1, h2⟩
